import Mathlib

/-!
Verification of the hosts-file reconciliation core of `main.go` (package
`main`, type `Hoster`): the address-resolution algorithm
(`getContainerData`), the managed-section rendering algorithm
(`updateHostsFile`), the shutdown path (`handleShutdown`) and the event
dispatch of `Run`.  Go strings are modelled as Lean `String`
(a wrapper around `List Char`), the Go map `h.hosts` as an association
list whose order stands for the enumeration that one particular `range`
over the map observes — Go randomizes that order on every `range`, so
two renders over the same unchanged map observe two enumerations that
are permutations of each other — and the filesystem as the pair of the
target file's content and the auxiliary file's content.
-/

namespace Hoster

/-! ### Line splitting and joining

`splitNl` is the character-level embedding of Go's
`strings.Split(s, "\n")`: it cuts the character list at every newline,
producing one piece more than the number of newlines (`[[]]` for the
empty string).  `joinWith sep` embeds `strings.Join` at the character
level. -/

/-- Split a character list at every newline character, as
`strings.Split(s, "\n")` does on the underlying bytes. -/
def splitNl : List Char → List (List Char)
  | [] => [[]]
  | c :: cs =>
    if c = '\n' then [] :: splitNl cs
    else
      match splitNl cs with
      | [] => [[c]]
      | p :: ps => (c :: p) :: ps

/-- Interleave `sep` between the pieces, as `strings.Join(pieces, sep)`. -/
def joinWith (sep : List Char) : List (List Char) → List Char
  | [] => []
  | [x] => x
  | x :: y :: t => x ++ sep ++ joinWith sep (y :: t)

theorem splitNl_ne_nil (cs : List Char) : splitNl cs ≠ [] := by
  cases cs with
  | nil => simp [splitNl]
  | cons c cs =>
    by_cases h : c = '\n'
    · simp [splitNl, h]
    · cases h2 : splitNl cs <;> simp [splitNl, h, h2]

theorem nl_not_mem_of_mem_splitNl {cs : List Char} {p : List Char}
    (hp : p ∈ splitNl cs) : '\n' ∉ p := by
  induction cs generalizing p with
  | nil =>
    simp [splitNl] at hp
    simp [hp]
  | cons c cs ih =>
    by_cases h : c = '\n'
    · simp [splitNl, h] at hp
      rcases hp with hp | hp
      · simp [hp]
      · exact ih hp
    · cases h2 : splitNl cs with
      | nil => exact absurd h2 (splitNl_ne_nil cs)
      | cons q qs =>
        simp [splitNl, h, h2] at hp
        rcases hp with hp | hp
        · subst hp
          intro hmem
          rcases List.mem_cons.mp hmem with h3 | h3
          · exact h h3.symm
          · exact ih (h2 ▸ List.mem_cons_self q qs) h3
        · exact ih (h2 ▸ List.mem_cons_of_mem q hp)

theorem splitNl_of_nl_free {cs : List Char} (h : '\n' ∉ cs) :
    splitNl cs = [cs] := by
  induction cs with
  | nil => simp [splitNl]
  | cons c cs ih =>
    have hc : c ≠ '\n' := fun hc => h (hc ▸ List.mem_cons_self c cs)
    have hcs : '\n' ∉ cs := fun h2 => h (List.mem_cons_of_mem c h2)
    simp [splitNl, hc, ih hcs]

theorem splitNl_append_nl (x cs : List Char) :
    splitNl (x ++ '\n' :: cs) = splitNl x ++ splitNl cs := by
  induction x with
  | nil =>
    cases h : splitNl cs with
    | nil => exact absurd h (splitNl_ne_nil cs)
    | cons p ps => simp [splitNl, h]
  | cons c x ih =>
    by_cases h : c = '\n'
    · simp [splitNl, h, ih]
    · cases h2 : splitNl x with
      | nil => exact absurd h2 (splitNl_ne_nil x)
      | cons q qs =>
        have h4 : splitNl (x ++ '\n' :: cs) = q :: (qs ++ splitNl cs) := by
          rw [ih, h2]; rfl
        simp only [List.cons_append, splitNl, if_neg h, h2]
        have h5 : splitNl (x.append ('\n' :: cs)) = q :: (qs ++ splitNl cs) := h4
        rw [h5]

/-- Splitting the join of a nonempty list of pieces refines each piece. -/
theorem splitNl_joinWith (M : List (List Char)) (h : M ≠ []) :
    splitNl (joinWith ['\n'] M) = (M.map splitNl).flatten := by
  induction M with
  | nil => exact absurd rfl h
  | cons x M ih =>
    cases M with
    | nil => simp [joinWith]
    | cons y t =>
      have : x ++ ['\n'] ++ joinWith ['\n'] (y :: t)
          = x ++ '\n' :: joinWith ['\n'] (y :: t) := by simp
      rw [joinWith, this, splitNl_append_nl, ih (by simp)]
      simp

theorem getLast?_append_right (l x : List α) (hx : x ≠ []) :
    (l ++ x).getLast? = x.getLast? := by
  rw [List.getLast?_append]
  cases h : x.getLast? with
  | none =>
    rcases List.exists_cons_of_ne_nil hx with ⟨c, x', rfl⟩
    simp at h
  | some v => rfl

theorem getLast?_joinWith (sep : List Char) (M : List (List Char))
    (x : List Char) (hx : x ≠ []) :
    (joinWith sep (M ++ [x])).getLast? = x.getLast? := by
  induction M with
  | nil => simp [joinWith]
  | cons a M ih =>
    have key : joinWith sep ((a :: M) ++ [x])
        = a ++ sep ++ joinWith sep (M ++ [x]) := by
      cases M <;> rfl
    have hJ : joinWith sep (M ++ [x]) ≠ [] := by
      intro h0
      rw [h0] at ih
      exact hx (List.getLast?_eq_none_iff.mp ih.symm)
    rw [key, List.append_assoc]
    rw [getLast?_append_right _ _ (by simp [hJ])]
    rw [getLast?_append_right _ _ hJ]
    exact ih

/-! ### String-level lines

`goSplitLines` and `goJoinStrings` lift the character-level functions to
`String`: they are the embeddings of `strings.Split(s, "\n")` and
`strings.Join(lines, sep)` used by `Hoster.updateHostsFile`
(main.go lines 126 and 147/157). -/

/-- Embedding of `strings.Split(s, "\n")`. -/
def goSplitLines (s : String) : List String :=
  (splitNl s.data).map String.mk

/-- Embedding of `strings.Join(ls, sep)`. -/
def goJoinStrings (sep : String) (ls : List String) : String :=
  String.mk (joinWith sep.data (ls.map String.data))

/-- Embedding of `strings.Join(lines, "\n")` (main.go line 157). -/
def goJoinLines (ls : List String) : String :=
  goJoinStrings "\n" ls

/-- A string with no newline character in it: such a string is a single
line. -/
def NlFree (s : String) : Prop := '\n' ∉ s.data

instance (s : String) : Decidable (NlFree s) := by
  unfold NlFree; infer_instance

theorem goSplitLines_ne_nil (s : String) : goSplitLines s ≠ [] := by
  intro h
  exact splitNl_ne_nil s.data (by simpa [goSplitLines] using h)

theorem nlFree_of_mem_goSplitLines {s : String} {l : String}
    (hl : l ∈ goSplitLines s) : NlFree l := by
  rcases List.mem_map.mp hl with ⟨p, hp, rfl⟩
  exact nl_not_mem_of_mem_splitNl hp

theorem goSplitLines_of_nlFree {s : String} (h : NlFree s) :
    goSplitLines s = [s] := by
  unfold goSplitLines
  rw [splitNl_of_nl_free h]
  rfl

/-- Splitting the join of a nonempty list of strings concatenates the
splits of the individual strings. -/
theorem goSplitLines_goJoinLines (L : List String) (h : L ≠ []) :
    goSplitLines (goJoinLines L) = (L.map goSplitLines).flatten := by
  unfold goSplitLines goJoinLines goJoinStrings
  have hdata : (String.mk (joinWith "\n".data (L.map String.data))).data
      = joinWith ['\n'] (L.map String.data) := rfl
  rw [hdata, splitNl_joinWith _ (by simpa using h)]
  rw [List.map_flatten, List.map_map, List.map_map]
  rfl

theorem flatten_map_goSplitLines (L : List String)
    (hfree : ∀ l ∈ L, NlFree l) :
    (L.map goSplitLines).flatten = L := by
  induction L with
  | nil => rfl
  | cons a L ih =>
    rw [List.map_cons, List.flatten_cons,
      goSplitLines_of_nlFree (hfree a (List.mem_cons_self a L)),
      ih (fun l hl => hfree l (List.mem_cons_of_mem a hl))]
    rfl

/-- Joining a list of newline-free strings splits back to the same list. -/
theorem goSplitLines_goJoinLines_of_nlFree (L : List String) (h : L ≠ [])
    (hfree : ∀ l ∈ L, NlFree l) :
    goSplitLines (goJoinLines L) = L := by
  rw [goSplitLines_goJoinLines L h]
  exact flatten_map_goSplitLines L hfree

/-! ### Blank lines and trailing-blank stripping -/

/-- Embedding of the test `strings.TrimSpace(line) == ""` (main.go
line 137): the line consists of whitespace only. -/
def isBlank (s : String) : Bool :=
  s.data.all Char.isWhitespace

/-- Embedding of the loop at main.go lines 136-139: repeatedly drop the
last line while it is blank. -/
def stripTrailing (ls : List String) : List String :=
  (ls.reverse.dropWhile isBlank).reverse

theorem dropWhile_cases (p : α → Bool) (l : List α) :
    l.dropWhile p = [] ∨
      ∃ a t, l.dropWhile p = a :: t ∧ p a = false := by
  induction l with
  | nil => exact Or.inl rfl
  | cons a l ih =>
    by_cases h : p a
    · simpa [List.dropWhile_cons, h] using ih
    · exact Or.inr ⟨a, l, by simp [List.dropWhile_cons, h], by simpa using h⟩

theorem dropWhile_dropWhile (p : α → Bool) (l : List α) :
    (l.dropWhile p).dropWhile p = l.dropWhile p := by
  rcases dropWhile_cases p l with h | ⟨a, t, h, hpa⟩
  · simp [h]
  · simp [h, List.dropWhile_cons, hpa]

theorem stripTrailing_idem (ls : List String) :
    stripTrailing (stripTrailing ls) = stripTrailing ls := by
  unfold stripTrailing
  rw [List.reverse_reverse, dropWhile_dropWhile]

theorem stripTrailing_append_blank (ls : List String) (b : String)
    (hb : isBlank b = true) :
    stripTrailing (ls ++ [b]) = stripTrailing ls := by
  unfold stripTrailing
  rw [List.reverse_append]
  simp [List.dropWhile_cons, hb]

theorem stripTrailing_subset (ls : List String) :
    stripTrailing ls ⊆ ls := by
  intro l hl
  unfold stripTrailing at hl
  rw [List.mem_reverse] at hl
  have := (List.dropWhile_sublist (l := ls.reverse) (p := isBlank)).subset hl
  exact List.mem_reverse.mp this

theorem stripTrailing_getLast_not_blank (ls : List String)
    (h : stripTrailing ls ≠ []) :
    ∃ x t, stripTrailing ls = t ++ [x] ∧ isBlank x = false := by
  rcases dropWhile_cases isBlank ls.reverse with h2 | ⟨a, t, h2, hpa⟩
  · exact absurd (by unfold stripTrailing; rw [h2]; rfl) h
  · refine ⟨a, t.reverse, ?_, hpa⟩
    unfold stripTrailing
    rw [h2]
    exact List.reverse_cons a t

/-! ### The managed-section markers (main.go lines 22, 143, 152) -/

/-- The constant `enclosingPattern` of main.go line 22 (it carries a
trailing newline). -/
def enclosingPattern : String := "#-----------Docker-Hoster-Domains----------\n"

/-- The start-marker line as it is appended at main.go line 143:
`strings.TrimSuffix(enclosingPattern, "\n")`. -/
def markerLine : String := "#-----------Docker-Hoster-Domains----------"

/-- The end-marker line appended at main.go line 152. -/
def trailerLine : String := "#-----Do-not-add-hosts-after-this-line-----"

theorem markerLine_append_newline : markerLine ++ "\n" = enclosingPattern := by
  decide

/-- The loop test at main.go line 130, `line+"\n" == enclosingPattern`,
holds exactly for the start-marker line. -/
theorem marker_cond (l : String) :
    l ++ "\n" = enclosingPattern ↔ l = markerLine := by
  constructor
  · intro h
    have hd : l.data ++ "\n".data = enclosingPattern.data := by
      rw [← String.data_append, h]
    have hd2 : l.data ++ "\n".data = markerLine.data ++ "\n".data := by
      rw [hd]; rfl
    exact congrArg String.mk (List.append_cancel_right hd2)
  · intro h
    rw [h]
    exact markerLine_append_newline

/-- Embedding of the truncation loop at main.go lines 129-134: keep the
lines strictly before the first line `l` with `l+"\n" == enclosingPattern`
(the whole list when no such line exists). -/
def removeAfterMarker : List String → List String
  | [] => []
  | l :: ls =>
    if l ++ "\n" = enclosingPattern then [] else l :: removeAfterMarker ls

theorem removeAfterMarker_no_marker {ls : List String} {l : String}
    (hl : l ∈ removeAfterMarker ls) : l ≠ markerLine := by
  induction ls with
  | nil => simp [removeAfterMarker] at hl
  | cons a ls ih =>
    by_cases h : a ++ "\n" = enclosingPattern
    · simp [removeAfterMarker, h] at hl
    · rw [removeAfterMarker, if_neg h] at hl
      rcases List.mem_cons.mp hl with rfl | hl
      · exact fun h2 => h ((marker_cond l).mpr h2)
      · exact ih hl

theorem removeAfterMarker_of_no_marker {ls : List String}
    (h : ∀ l ∈ ls, l ≠ markerLine) : removeAfterMarker ls = ls := by
  induction ls with
  | nil => rfl
  | cons a ls ih =>
    rw [removeAfterMarker,
      if_neg (fun h2 => h a (List.mem_cons_self a ls) ((marker_cond a).mp h2)),
      ih (fun l hl => h l (List.mem_cons_of_mem a hl))]

theorem removeAfterMarker_append_marker (X rest : List String)
    (h : ∀ l ∈ X, l ≠ markerLine) :
    removeAfterMarker (X ++ markerLine :: rest) = X := by
  induction X with
  | nil =>
    rw [List.nil_append, removeAfterMarker,
      if_pos ((marker_cond markerLine).mpr rfl)]
  | cons a X ih =>
    rw [List.cons_append, removeAfterMarker,
      if_neg (fun h2 => h a (List.mem_cons_self a X) ((marker_cond a).mp h2)),
      ih (fun l hl => h l (List.mem_cons_of_mem a hl))]

theorem removeAfterMarker_subset (ls : List String) :
    removeAfterMarker ls ⊆ ls := by
  induction ls with
  | nil => simp [removeAfterMarker]
  | cons a ls ih =>
    by_cases h : a ++ "\n" = enclosingPattern
    · simp [removeAfterMarker, h]
    · rw [removeAfterMarker, if_neg h]
      exact List.cons_subset_cons a ih

theorem removeAfterMarker_eq_takeWhile (ls : List String) :
    removeAfterMarker ls = ls.takeWhile (fun l => l != markerLine) := by
  induction ls with
  | nil => rfl
  | cons a ls ih =>
    by_cases h : a ++ "\n" = enclosingPattern
    · have : a = markerLine := (marker_cond a).mp h
      simp [removeAfterMarker, h, List.takeWhile_cons, this,
        markerLine_append_newline]
    · have : a ≠ markerLine := fun h2 => h ((marker_cond a).mpr h2)
      simp [removeAfterMarker, h, List.takeWhile_cons, this, ih]

/-! ### The data model (main.go lines 27-37)

`ContainerAddress` embeds the Go struct of the same name.  The Go map
`h.hosts : map[string][]ContainerAddress` is embedded as an association
list; the list order stands for the map's iteration order. -/

structure ContainerAddress where
  IP : String
  Name : String
  Domains : List String
  deriving DecidableEq, Repr

/-- The registry `h.hosts`: container id to its address records. -/
abbrev Registry : Type := List (String × List ContainerAddress)

/-- One rendered hosts line, main.go lines 147-148:
`fmt.Sprintf("%s    %s", addr.IP, strings.Join(addr.Domains, "   "))`. -/
def domainLine (addr : ContainerAddress) : String :=
  addr.IP ++ "    " ++ goJoinStrings "   " addr.Domains

/-- The managed lines of one render (the loop at main.go lines 145-150):
the list order is the enumeration that this render's `range h.hosts`
observes.  Go randomizes map iteration per `range`, so another render of
the same unchanged map may observe any permutation of the list. -/
def registryLines (hosts : Registry) : List String :=
  hosts.flatMap fun p => p.2.map domainLine

/-- The preserved prefix as a line list: the lines before the first
marker line (main.go lines 129-134) with trailing blank lines stripped
(main.go lines 136-139). -/
def preservedLines (content : String) : List String :=
  stripTrailing (removeAfterMarker (goSplitLines content))

/-- The line list built by `Hoster.updateHostsFile` (main.go lines
126-153): split the current content into lines, drop the first marker
line and everything after it, strip trailing blank lines, and if the
registry is nonempty append the managed section (blank separator, start
marker, one line per address record, end marker, trailing blank). -/
def renderLines (hosts : Registry) (content : String) : List String :=
  if hosts.isEmpty then preservedLines content
  else
    preservedLines content ++ ["", markerLine] ++ registryLines hosts
      ++ [trailerLine, ""]

/-- The full content written by `Hoster.updateHostsFile` (main.go line
157): the rendered lines joined by newlines. -/
def renderContent (hosts : Registry) (content : String) : String :=
  goJoinLines (renderLines hosts content)

/-! ### Structure of a rendered file -/

theorem nlFree_of_mem_preservedLines {c : String} {l : String}
    (hl : l ∈ preservedLines c) : NlFree l :=
  nlFree_of_mem_goSplitLines
    (removeAfterMarker_subset _ (stripTrailing_subset _ hl))

theorem ne_marker_of_mem_preservedLines {c : String} {l : String}
    (hl : l ∈ preservedLines c) : l ≠ markerLine :=
  removeAfterMarker_no_marker (stripTrailing_subset _ hl)

theorem stripTrailing_preservedLines (c : String) :
    stripTrailing (preservedLines c) = preservedLines c :=
  stripTrailing_idem _

theorem preservedLines_goJoinLines_self (c : String) :
    preservedLines (goJoinLines (preservedLines c)) = preservedLines c := by
  cases h : preservedLines c with
  | nil => decide
  | cons a P' =>
    have hfree : ∀ l ∈ a :: P', NlFree l := fun l hl =>
      nlFree_of_mem_preservedLines (c := c) (by rw [h]; exact hl)
    have hmark : ∀ l ∈ a :: P', l ≠ markerLine := fun l hl =>
      ne_marker_of_mem_preservedLines (c := c) (by rw [h]; exact hl)
    show stripTrailing
        (removeAfterMarker (goSplitLines (goJoinLines (a :: P'))))
      = a :: P'
    rw [goSplitLines_goJoinLines_of_nlFree (a :: P') (by simp) hfree]
    rw [removeAfterMarker_of_no_marker hmark]
    rw [← h]
    exact stripTrailing_preservedLines c

/-- A rendered file splits as the preserved prefix, the blank separator,
the marker line and a remainder; hence its preserved prefix is the one of
the starting file, whatever was appended after the marker. -/
theorem preservedLines_prefix_append (P rest : List String)
    (hfreeP : ∀ l ∈ P, NlFree l) (hmarkP : ∀ l ∈ P, l ≠ markerLine)
    (hstrip : stripTrailing P = P) :
    preservedLines (goJoinLines (P ++ ["", markerLine] ++ rest)) = P := by
  have hL : P ++ ["", markerLine] ++ rest ≠ [] := by simp
  unfold preservedLines
  rw [goSplitLines_goJoinLines _ hL]
  rw [List.map_append, List.map_append, List.flatten_append,
    List.flatten_append]
  rw [flatten_map_goSplitLines P hfreeP]
  have h1 : (List.map goSplitLines ["", markerLine]).flatten
      = ["", markerLine] := by decide
  rw [h1]
  have h2 : P ++ ["", markerLine] ++ (rest.map goSplitLines).flatten
      = (P ++ [""]) ++ (markerLine :: (rest.map goSplitLines).flatten) := by
    simp
  rw [h2]
  have hmark2 : ∀ l ∈ P ++ [""], l ≠ markerLine := by
    intro l hl
    rcases List.mem_append.mp hl with h | h
    · exact hmarkP l h
    · rw [List.mem_singleton.mp h]
      decide
  rw [removeAfterMarker_append_marker _ _ hmark2]
  rw [stripTrailing_append_blank _ _ (by decide), hstrip]

/-- Rendering never changes the (trailing-blank-stripped) preserved
prefix. -/
theorem preservedLines_renderContent (hosts : Registry) (c : String) :
    preservedLines (renderContent hosts c) = preservedLines c := by
  unfold renderContent renderLines
  by_cases h : hosts.isEmpty
  · rw [if_pos h]
    exact preservedLines_goJoinLines_self c
  · rw [if_neg h]
    have := preservedLines_prefix_append (preservedLines c)
      (registryLines hosts ++ [trailerLine, ""])
      (fun l hl => nlFree_of_mem_preservedLines hl)
      (fun l hl => ne_marker_of_mem_preservedLines hl)
      (stripTrailing_preservedLines c)
    simpa [List.append_assoc] using this

theorem renderLines_renderContent (hosts : Registry) (c : String) :
    renderLines hosts (renderContent hosts c) = renderLines hosts c := by
  unfold renderLines
  rw [preservedLines_renderContent]

/-! ### The filesystem and `updateHostsFile` (main.go lines 106-168)

The filesystem is the content of the target hosts file plus the content
of the auxiliary sibling file `h.hostsPath + ".aux"` (`none` when
absent).  `updateHostsFile` reads the target, renders, writes the
rendered content to the auxiliary file and renames it onto the target.
The `writeOk` flag injects a failure into the `os.WriteFile` step
(main.go line 158): on failure the auxiliary file may hold arbitrary
partial bytes, the function returns the error, and the rename (main.go
line 163) is never executed. -/

structure FS where
  target : String
  aux : Option String
  deriving DecidableEq, Repr

/-- Embedding of `Hoster.updateHostsFile`: returns the filesystem after
the call together with the call's outcome. -/
def updateHostsFile (hosts : Registry) (fs : FS) (writeOk : Bool)
    (partialContent : String) : FS × Except String Unit :=
  let content := renderContent hosts fs.target
  if writeOk then
    let afterWrite : FS := { target := fs.target, aux := some content }
    let afterRename : FS := { target := afterWrite.aux.getD "", aux := none }
    (afterRename, Except.ok ())
  else
    ({ target := fs.target, aux := some partialContent },
      Except.error "failed to write aux file")

/-- The successful render path: the filesystem after a render that did
not fail. -/
def applyRender (hosts : Registry) (fs : FS) : FS :=
  (updateHostsFile hosts fs true "").1

/-- Embedding of `Hoster.handleShutdown` (main.go lines 170-175): reset
the registry to empty, then render. -/
def handleShutdown (_hosts : Registry) (fs : FS) : Registry × FS :=
  let hosts2 : Registry := []
  (hosts2, applyRender hosts2 fs)

/-! ### Address resolution (main.go lines 55-104)

`InspectInfo` is the part of the Docker inspection result that
`getContainerData` reads: `info.Name`, `info.Config.Hostname`, the
values of the `info.NetworkSettings.Networks` map (in iteration order)
and the legacy `info.NetworkSettings.IPAddress`.  A `nil` alias slice
and an empty alias slice are both modelled as `[]`, which is exactly how
the code treats them (main.go line 69). -/

structure NetworkInfo where
  IPAddress : String
  Aliases : List String
  deriving DecidableEq, Repr

structure InspectInfo where
  Name : String
  Hostname : String
  Networks : List NetworkInfo
  IPAddress : String
  deriving DecidableEq, Repr

/-- Embedding of `strings.TrimPrefix(info.Name, "/")` (main.go line 62):
remove one leading `/` when present. -/
def stripSlash (s : String) : String :=
  match s.data with
  | '/' :: rest => String.mk rest
  | _ => s

/-- The deduplicated domain set of one network attachment (main.go lines
73-85): the declared aliases plus the container name and hostname, with
duplicates collapsed.  The Go code builds a `map[string]bool` and reads
it back in unspecified order; the embedding fixes one duplicate-free
enumeration of that set. -/
def mkDomains (aliases : List String) (name hostname : String) :
    List String :=
  (aliases ++ [name, hostname]).dedup

/-- The records of the per-network loop (main.go lines 67-92): one record
per attached network that declares at least one alias. -/
def perNetworkRecords (info : InspectInfo) : List ContainerAddress :=
  (info.Networks.filter fun n => !n.Aliases.isEmpty).map fun n =>
    { IP := n.IPAddress
      Name := stripSlash info.Name
      Domains := mkDomains n.Aliases (stripSlash info.Name) info.Hostname }

/-- The record added for the legacy default-bridge IP (main.go lines
94-101). -/
def legacyRecord (info : InspectInfo) : ContainerAddress :=
  { IP := info.IPAddress
    Name := stripSlash info.Name
    Domains := [stripSlash info.Name, info.Hostname] }

/-- Embedding of the pure part of `Hoster.getContainerData` (main.go
lines 61-103), applied to a successful inspection result. -/
def containerAddresses (info : InspectInfo) : List ContainerAddress :=
  if info.IPAddress = "" then perNetworkRecords info
  else perNetworkRecords info ++ [legacyRecord info]

/-- Embedding of `Hoster.getContainerData` including the inspection
step: an inspection failure is wrapped and propagated (main.go lines
56-59). -/
def getContainerData (res : Except String InspectInfo) :
    Except String (List ContainerAddress) :=
  match res with
  | Except.error e => Except.error ("failed to inspect container: " ++ e)
  | Except.ok info => Except.ok (containerAddresses info)

/-! ### The event loop (main.go lines 200-237)

The Go map operations on `h.hosts` are embedded on the association
list: `mapHas` is the `_, exists := h.hosts[id]` test, `mapSet` the
assignment `h.hosts[id] = data` (replace if present, else add), and
`mapDelete` the built-in `delete`. -/

def mapHas (hosts : Registry) (id : String) : Bool :=
  hosts.any fun p => p.1 == id

def mapSet (hosts : Registry) (id : String)
    (v : List ContainerAddress) : Registry :=
  match hosts with
  | [] => [(id, v)]
  | p :: rest =>
    if p.1 = id then (id, v) :: rest else p :: mapSet rest id v

def mapDelete (hosts : Registry) (id : String) : Registry :=
  hosts.filter fun p => !(p.1 == id)

/-- The `case "start"` branch of `Hoster.Run` (main.go lines 208-217):
resolve the container; on failure log and leave everything unchanged; on
success store the records under the container's id and render.  The
third component counts the renders performed by the branch. -/
def onStart (hosts : Registry) (fs : FS) (id : String)
    (res : Except String InspectInfo) : Registry × FS × Nat :=
  match getContainerData res with
  | Except.error _ => (hosts, fs, 0)
  | Except.ok data =>
    let hosts2 := mapSet hosts id data
    (hosts2, applyRender hosts2 fs, 1)

/-- The `case "stop", "die", "destroy"` branch of `Hoster.Run` (main.go
lines 219-225): only when the id is present, delete it and render. -/
def onStop (hosts : Registry) (fs : FS) (id : String) :
    Registry × FS × Nat :=
  if mapHas hosts id then
    let hosts2 := mapDelete hosts id
    (hosts2, applyRender hosts2 fs, 1)
  else (hosts, fs, 0)

/-- One iteration of the event loop of `Hoster.Run` (main.go lines
202-226): non-container events are ignored, `start` dispatches to the
start branch, `stop`/`die`/`destroy` to the stop branch, anything else
is ignored. -/
def handleEvent (hosts : Registry) (fs : FS) (evType action id : String)
    (res : Except String InspectInfo) : Registry × FS × Nat :=
  if evType ≠ "container" then (hosts, fs, 0)
  else if action = "start" then onStart hosts fs id res
  else if action = "stop" ∨ action = "die" ∨ action = "destroy" then
    onStop hosts fs id
  else (hosts, fs, 0)

theorem lookup_mapSet (hosts : Registry) (id : String)
    (v : List ContainerAddress) :
    List.lookup id (mapSet hosts id v) = some v := by
  induction hosts with
  | nil => simp [mapSet, List.lookup]
  | cons p rest ih =>
    obtain ⟨k, b⟩ := p
    by_cases hk : k = id
    · subst hk
      simp [mapSet, List.lookup]
    · have hik : (id == k) = false := by
        cases h2 : id == k
        · rfl
        · exact absurd (eq_of_beq h2).symm hk
      rw [mapSet, if_neg hk]
      rw [List.lookup, hik]
      exact ih

/-! ### Further derived facts used by the claims -/

/-- The preserved prefix of a file as the specification describes it:
everything before the managed-section start marker, or the whole file
when no marker line is present. -/
def preservedPrefix (content : String) : String :=
  let ls := goSplitLines content
  if markerLine ∈ ls then
    goJoinLines (ls.takeWhile fun l => l != markerLine) ++ "\n"
  else content

/-- Whether the content's final character is a newline. -/
def endsWithNewline (s : String) : Bool :=
  s.data.getLast? == some '\n'

theorem marker_not_mem_render_empty (c : String) :
    markerLine ∉ goSplitLines (renderContent ([] : Registry) c) := by
  have hout : renderContent ([] : Registry) c
      = goJoinLines (preservedLines c) := rfl
  rw [hout]
  cases h : preservedLines c with
  | nil => decide
  | cons a P' =>
    rw [← h,
      goSplitLines_goJoinLines_of_nlFree _ (by rw [h]; simp)
        (fun l hl => nlFree_of_mem_preservedLines hl)]
    intro hmem
    exact ne_marker_of_mem_preservedLines hmem rfl

/-- **Claim C1.** If the write of the temporary sibling file fails, the
target hosts file's content after the failed render is byte-identical to
its content before the attempted render: the error is returned before the
replace step, so no partial or truncated target file is observable. -/
theorem updateHostsFile_write_failure (hosts : Registry) (fs : FS)
    (partialContent : String) :
    (updateHostsFile hosts fs false partialContent).1.target = fs.target ∧
    (updateHostsFile hosts fs false partialContent).2
      = Except.error "failed to write aux file" :=
  ⟨rfl, rfl⟩

/-- **Claim C2, counterexample.** Consecutive renders of an unchanged
registry are not always byte-identical: Go randomizes the iteration
order of the map `h.hosts` on every `range` (main.go line 145), so two
renders of the same two-container registry may observe the two
enumerations below — permutations of one another, i.e. the same map —
and write different bytes. -/
theorem render_not_reproducible :
    List.Perm
      ([("a", [⟨"1.1.1.1", "n1", ["n1"]⟩]),
        ("b", [⟨"2.2.2.2", "n2", ["n2"]⟩])] : Registry)
      ([("b", [⟨"2.2.2.2", "n2", ["n2"]⟩]),
        ("a", [⟨"1.1.1.1", "n1", ["n1"]⟩])] : Registry) ∧
    renderContent
        ([("a", [⟨"1.1.1.1", "n1", ["n1"]⟩]),
          ("b", [⟨"2.2.2.2", "n2", ["n2"]⟩])] : Registry) ""
      ≠ renderContent
        ([("b", [⟨"2.2.2.2", "n2", ["n2"]⟩]),
          ("a", [⟨"1.1.1.1", "n1", ["n1"]⟩])] : Registry) "" := by
  decide

/-- **Claim C2 (amended).** Render is idempotent per iteration order and
stable up to it: a render that observes the same map enumeration as the
previous one rewrites byte-identical content; the bytes a render writes
never depend on the enumeration the previous render observed; and for a
fixed registry state any two enumerations of the map produce managed
lines — and whole rendered line lists — that are permutations of each
other (the set of managed lines is reproducible, their order is not). -/
theorem render_idempotent_per_order (ord1 ord2 : Registry) (c : String) :
    renderContent ord1 (renderContent ord1 c) = renderContent ord1 c ∧
    renderContent ord2 (renderContent ord1 c) = renderContent ord2 c ∧
    (List.Perm ord1 ord2 →
      List.Perm (registryLines ord1) (registryLines ord2) ∧
      List.Perm (renderLines ord2 (renderContent ord1 c))
        (renderLines ord1 c)) := by
  have hcross : ∀ h : Registry,
      renderLines h (renderContent ord1 c) = renderLines h c := by
    intro h
    unfold renderLines
    rw [preservedLines_renderContent]
  refine ⟨congrArg goJoinLines (hcross ord1),
    congrArg goJoinLines (hcross ord2), ?_⟩
  intro hperm
  have hreg : List.Perm (registryLines ord1) (registryLines ord2) := by
    unfold registryLines
    rw [List.flatMap_def, List.flatMap_def]
    exact (hperm.map _).flatten
  refine ⟨hreg, ?_⟩
  rw [hcross ord2]
  unfold renderLines
  by_cases h1 : ord1.isEmpty
  · have e1 : ord1 = [] := by
      cases ord1
      · rfl
      · simp at h1
    have e2 : ord2 = [] := (e1 ▸ hperm).symm.eq_nil
    rw [e1, e2]
  · have h2 : ¬ord2.isEmpty = true := by
      intro h2e
      have e2 : ord2 = [] := by
        cases ord2
        · rfl
        · simp at h2e
      have e1 : ord1 = [] := (e2 ▸ hperm).eq_nil
      rw [e1] at h1
      exact h1 rfl
    rw [if_neg h1, if_neg h2]
    exact (hreg.symm.append_left _).append_right _

/-- Witness for C2 (amended) at a two-container registry observed in its
two enumeration orders. -/
theorem render_idempotent_per_order_witness :
    renderContent
        ([("a", [⟨"1.1.1.1", "n1", ["n1"]⟩]),
          ("b", [⟨"2.2.2.2", "n2", ["n2"]⟩])] : Registry)
        (renderContent
          ([("a", [⟨"1.1.1.1", "n1", ["n1"]⟩]),
            ("b", [⟨"2.2.2.2", "n2", ["n2"]⟩])] : Registry) "x\n")
      = renderContent
        ([("a", [⟨"1.1.1.1", "n1", ["n1"]⟩]),
          ("b", [⟨"2.2.2.2", "n2", ["n2"]⟩])] : Registry) "x\n" ∧
    renderContent
        ([("b", [⟨"2.2.2.2", "n2", ["n2"]⟩]),
          ("a", [⟨"1.1.1.1", "n1", ["n1"]⟩])] : Registry)
        (renderContent
          ([("a", [⟨"1.1.1.1", "n1", ["n1"]⟩]),
            ("b", [⟨"2.2.2.2", "n2", ["n2"]⟩])] : Registry) "x\n")
      = renderContent
        ([("b", [⟨"2.2.2.2", "n2", ["n2"]⟩]),
          ("a", [⟨"1.1.1.1", "n1", ["n1"]⟩])] : Registry) "x\n" ∧
    (List.Perm
      (registryLines
        ([("a", [⟨"1.1.1.1", "n1", ["n1"]⟩]),
          ("b", [⟨"2.2.2.2", "n2", ["n2"]⟩])] : Registry))
      (registryLines
        ([("b", [⟨"2.2.2.2", "n2", ["n2"]⟩]),
          ("a", [⟨"1.1.1.1", "n1", ["n1"]⟩])] : Registry)) ∧
    List.Perm
      (renderLines
        ([("b", [⟨"2.2.2.2", "n2", ["n2"]⟩]),
          ("a", [⟨"1.1.1.1", "n1", ["n1"]⟩])] : Registry)
        (renderContent
          ([("a", [⟨"1.1.1.1", "n1", ["n1"]⟩]),
            ("b", [⟨"2.2.2.2", "n2", ["n2"]⟩])] : Registry) "x\n"))
      (renderLines
        ([("a", [⟨"1.1.1.1", "n1", ["n1"]⟩]),
          ("b", [⟨"2.2.2.2", "n2", ["n2"]⟩])] : Registry) "x\n")) := by
  have h := render_idempotent_per_order
    ([("a", [⟨"1.1.1.1", "n1", ["n1"]⟩]),
      ("b", [⟨"2.2.2.2", "n2", ["n2"]⟩])] : Registry)
    ([("b", [⟨"2.2.2.2", "n2", ["n2"]⟩]),
      ("a", [⟨"1.1.1.1", "n1", ["n1"]⟩])] : Registry) "x\n"
  exact ⟨h.1, h.2.1, h.2.2 (by decide)⟩

/-- **Claim C3, counterexample.** The preserved prefix is not always
byte-identical after a render: a file `"a\n"` without a marker has
preserved prefix `"a\n"`, but rendering it with an empty registry leaves
the file `"a"`, whose preserved prefix is `"a"` (the trailing newline is
stripped together with the trailing blank line). -/
theorem preservedPrefix_not_exact :
    preservedPrefix (renderContent ([] : Registry) "a\n")
      ≠ preservedPrefix "a\n" := by decide

/-- **Claim C3 (amended).** After every successful render the preserved
prefix agrees with the pre-render preserved prefix up to the removal of
trailing blank lines: the prefix lines with trailing blank lines
stripped are byte-identical before and after the render. -/
theorem render_preserves_prefix (hosts : Registry) (c : String) :
    stripTrailing
        ((goSplitLines (renderContent hosts c)).takeWhile
          fun l => l != markerLine)
      = stripTrailing
        ((goSplitLines c).takeWhile fun l => l != markerLine) := by
  have h1 := preservedLines_renderContent hosts c
  unfold preservedLines at h1
  rw [removeAfterMarker_eq_takeWhile, removeAfterMarker_eq_takeWhile] at h1
  exact h1

/-- **Claim C4.** Rendering a file that contains a managed section with
an empty registry (as the shutdown handler does) removes the marker line
and everything after it: the result is exactly the original preserved
prefix with trailing blank lines collapsed, and it contains no marker
line. -/
theorem shutdown_removes_managed_section (hosts : Registry) (fs : FS)
    (_hmark : markerLine ∈ goSplitLines fs.target) :
    (handleShutdown hosts fs).1 = [] ∧
    (handleShutdown hosts fs).2.target
      = goJoinLines
        (stripTrailing
          ((goSplitLines fs.target).takeWhile fun l => l != markerLine)) ∧
    markerLine ∉ goSplitLines (handleShutdown hosts fs).2.target := by
  refine ⟨rfl, ?_, ?_⟩
  · show renderContent ([] : Registry) fs.target = _
    show goJoinLines (preservedLines fs.target) = _
    rw [preservedLines, removeAfterMarker_eq_takeWhile]
  · exact marker_not_mem_render_empty fs.target

/-- Witness for C4 at a concrete file holding a managed section. -/
theorem shutdown_removes_managed_section_witness :
    (handleShutdown [("cid", [⟨"10.0.0.7", "web", ["web"]⟩])]
        ⟨"127.0.0.1 localhost\n\n#-----------Docker-Hoster-Domains----------\n10.0.0.7    web\n#-----Do-not-add-hosts-after-this-line-----\n", none⟩).1 = [] ∧
    (handleShutdown [("cid", [⟨"10.0.0.7", "web", ["web"]⟩])]
        ⟨"127.0.0.1 localhost\n\n#-----------Docker-Hoster-Domains----------\n10.0.0.7    web\n#-----Do-not-add-hosts-after-this-line-----\n", none⟩).2.target
      = goJoinLines
        (stripTrailing
          ((goSplitLines "127.0.0.1 localhost\n\n#-----------Docker-Hoster-Domains----------\n10.0.0.7    web\n#-----Do-not-add-hosts-after-this-line-----\n").takeWhile
            fun l => l != markerLine)) ∧
    markerLine ∉ goSplitLines
      (handleShutdown [("cid", [⟨"10.0.0.7", "web", ["web"]⟩])]
        ⟨"127.0.0.1 localhost\n\n#-----------Docker-Hoster-Domains----------\n10.0.0.7    web\n#-----Do-not-add-hosts-after-this-line-----\n", none⟩).2.target :=
  shutdown_removes_managed_section _ _ (by decide)

/-- **Claim C5.** `getContainerData` emits exactly one record per
attached network that declares at least one alias (plus the legacy
record when the default IP is non-empty), and that record carries the
network's IP and the deduplicated alias set consisting of the declared
aliases, the display name and the hostname; an attachment declaring zero
aliases contributes no record. -/
theorem containerAddresses_per_network (info : InspectInfo) :
    (containerAddresses info).length
      = (info.Networks.filter fun n => !n.Aliases.isEmpty).length
        + (if info.IPAddress = "" then 0 else 1) ∧
    ∀ n ∈ info.Networks, n.Aliases ≠ [] →
      ∃ r ∈ containerAddresses info,
        r.IP = n.IPAddress ∧ r.Domains.Nodup ∧
        ∀ d, (d ∈ r.Domains
          ↔ d ∈ n.Aliases ∨ d = stripSlash info.Name ∨ d = info.Hostname) := by
  constructor
  · unfold containerAddresses perNetworkRecords
    by_cases hip : info.IPAddress = "" <;> simp [hip]
  · intro n hn hne
    have hmem : { IP := n.IPAddress
                  Name := stripSlash info.Name
                  Domains := mkDomains n.Aliases (stripSlash info.Name)
                    info.Hostname : ContainerAddress }
        ∈ perNetworkRecords info := by
      unfold perNetworkRecords
      exact List.mem_map_of_mem _
        (List.mem_filter.mpr ⟨hn, by simpa using hne⟩)
    refine ⟨{ IP := n.IPAddress
              Name := stripSlash info.Name
              Domains := mkDomains n.Aliases (stripSlash info.Name)
                info.Hostname },
          ?_, rfl, ?_, ?_⟩
    · unfold containerAddresses
      by_cases hip : info.IPAddress = ""
      · rw [if_pos hip]
        exact hmem
      · rw [if_neg hip]
        exact List.mem_append_left _ hmem
    · show (mkDomains n.Aliases (stripSlash info.Name) info.Hostname).Nodup
      unfold mkDomains
      exact List.nodup_dedup _
    · intro d
      show d ∈ mkDomains n.Aliases (stripSlash info.Name) info.Hostname ↔ _
      unfold mkDomains
      rw [List.mem_dedup]
      simp

/-- Witness for C5: a container named `web` with hostname `web-1`
attached to one network with alias `api` yields for that network one
record with alias set `{api, web, web-1}`. -/
theorem containerAddresses_per_network_witness :
    ∃ r ∈ containerAddresses ⟨"/web", "web-1", [⟨"10.0.0.2", ["api"]⟩], ""⟩,
      r.IP = "10.0.0.2" ∧ r.Domains.Nodup ∧
      ∀ d, (d ∈ r.Domains ↔ d ∈ ["api"] ∨ d = "web" ∨ d = "web-1") := by
  have h := (containerAddresses_per_network
      ⟨"/web", "web-1", [⟨"10.0.0.2", ["api"]⟩], ""⟩).2
    ⟨"10.0.0.2", ["api"]⟩ (by simp) (by decide)
  have e : stripSlash "/web" = "web" := by decide
  simpa [e] using h

/-- **Claim C6, counterexample.** An empty IP can be recorded: a network
attachment that declares an alias but reports an empty IP yields a
record with `IP = ""`, because the per-network loop never checks the
network's IP for emptiness (only the legacy default IP is guarded). -/
theorem containerAddresses_records_empty_ip :
    ¬ ∀ r ∈ containerAddresses ⟨"/c", "h", [⟨"", ["a"]⟩], ""⟩,
      r.IP ≠ "" := by decide

/-- **Claim C6 (amended).** Every record produced by `getContainerData`
has a non-empty alias set that contains the container's display name;
the legacy record's IP is guarded to be non-empty, but per-network
records copy the network's IP verbatim, which may be empty. -/
theorem containerAddresses_domains_contain_name (info : InspectInfo) :
    ∀ r ∈ containerAddresses info,
      stripSlash info.Name ∈ r.Domains ∧ r.Domains ≠ [] := by
  intro r hr
  have hname : stripSlash info.Name ∈ r.Domains := by
    unfold containerAddresses at hr
    have hper : r ∈ perNetworkRecords info →
        stripSlash info.Name ∈ r.Domains := by
      intro hp
      unfold perNetworkRecords at hp
      rcases List.mem_map.mp hp with ⟨n, _, rfl⟩
      show stripSlash info.Name
        ∈ mkDomains n.Aliases (stripSlash info.Name) info.Hostname
      unfold mkDomains
      rw [List.mem_dedup]
      simp
    by_cases hip : info.IPAddress = ""
    · rw [if_pos hip] at hr
      exact hper hr
    · rw [if_neg hip] at hr
      rcases List.mem_append.mp hr with hp | hl
      · exact hper hp
      · rw [List.mem_singleton.mp hl]
        show stripSlash info.Name ∈ [stripSlash info.Name, info.Hostname]
        simp
  exact ⟨hname, List.ne_nil_of_mem hname⟩

/-- Witness for C6 (amended): both the per-network record and the legacy
record of a concrete container contain the display name `db`. -/
theorem containerAddresses_domains_contain_name_witness :
    ("db" : String)
        ∈ (⟨"10.1.1.1", "db", mkDomains ["x"] "db" "db-1"⟩ :
            ContainerAddress).Domains ∧
      (⟨"10.1.1.1", "db", mkDomains ["x"] "db" "db-1"⟩ :
          ContainerAddress).Domains ≠ [] := by
  have h := containerAddresses_domains_contain_name
    ⟨"/db", "db-1", [⟨"10.1.1.1", ["x"]⟩], "172.17.0.2"⟩
    ⟨"10.1.1.1", "db", mkDomains ["x"] "db" "db-1"⟩ (by decide)
  have e : stripSlash "/db" = "db" := by decide
  simpa [e] using h

/-- **Claim C7.** When the container has a non-empty legacy default IP,
`getContainerData` appends exactly one additional record with that IP
and alias list `[display name, hostname]` after all per-network records;
as an alias set this record is `{display name, hostname}`, which
collapses to the singleton `{display name}` when the hostname equals the
display name. -/
theorem containerAddresses_legacy (info : InspectInfo)
    (h : info.IPAddress ≠ "") :
    containerAddresses info
      = perNetworkRecords info ++ [legacyRecord info] ∧
    (legacyRecord info).Domains.toFinset
      = {stripSlash info.Name, info.Hostname} ∧
    (info.Hostname = stripSlash info.Name →
      (legacyRecord info).Domains.toFinset = {stripSlash info.Name}) := by
  refine ⟨by unfold containerAddresses; rw [if_neg h], ?_, ?_⟩
  · show ([stripSlash info.Name, info.Hostname] : List String).toFinset = _
    simp
  · intro he
    show ([stripSlash info.Name, info.Hostname] : List String).toFinset = _
    rw [he]
    simp

/-- Witness for C7: a container with name and hostname both `db` and a
legacy IP gets exactly the legacy record, whose alias set is the
singleton `{db}`. -/
theorem containerAddresses_legacy_witness :
    containerAddresses ⟨"/db", "db", [], "172.17.0.2"⟩
      = perNetworkRecords ⟨"/db", "db", [], "172.17.0.2"⟩
        ++ [legacyRecord ⟨"/db", "db", [], "172.17.0.2"⟩] ∧
    (legacyRecord ⟨"/db", "db", [], "172.17.0.2"⟩).Domains.toFinset
      = {"db"} := by
  have h := containerAddresses_legacy ⟨"/db", "db", [], "172.17.0.2"⟩
    (by decide)
  have e : stripSlash "/db" = "db" := by decide
  refine ⟨h.1, ?_⟩
  have h3 := h.2.2 (by decide)
  simpa [e] using h3

theorem mapHas_iff (hosts : Registry) (id : String) :
    mapHas hosts id = true ↔ ∃ p ∈ hosts, p.1 = id := by
  unfold mapHas
  rw [List.any_eq_true]
  constructor
  · rintro ⟨p, hp, hbe⟩
    exact ⟨p, hp, eq_of_beq hbe⟩
  · rintro ⟨p, hp, he⟩
    exact ⟨p, hp, beq_of_eq he⟩

/-- **Claim C8.** A stop/die/destroy event for an id absent from the
registry is a no-op: the registry, the filesystem and the render count
are unchanged, whichever of the three actions delivered it; for a
present id, the entry is deleted and exactly one render is performed on
the shrunken registry. -/
theorem onStop_spec (hosts : Registry) (fs : FS) (id : String) :
    ((∀ p ∈ hosts, p.1 ≠ id) →
      onStop hosts fs id = (hosts, fs, 0) ∧
      ∀ a ∈ (["stop", "die", "destroy"] : List String), ∀ res,
        handleEvent hosts fs "container" a id res = (hosts, fs, 0)) ∧
    ((∃ p ∈ hosts, p.1 = id) →
      (onStop hosts fs id).1 = mapDelete hosts id ∧
      (onStop hosts fs id).2.1 = applyRender (mapDelete hosts id) fs ∧
      (onStop hosts fs id).2.2 = 1) := by
  constructor
  · intro habs
    have hm : mapHas hosts id = false := by
      cases hb : mapHas hosts id
      · rfl
      · rcases (mapHas_iff hosts id).mp hb with ⟨p, hp, he⟩
        exact absurd he (habs p hp)
    have hstop : onStop hosts fs id = (hosts, fs, 0) := by
      unfold onStop
      rw [hm]
      rfl
    refine ⟨hstop, ?_⟩
    intro a ha res
    fin_cases ha
    · exact hstop
    · exact hstop
    · exact hstop
  · intro hpres
    have hm : mapHas hosts id = true := (mapHas_iff hosts id).mpr hpres
    unfold onStop
    rw [hm]
    exact ⟨rfl, rfl, rfl⟩

/-- Witness for C8: a stop for an absent id leaves everything untouched,
and a stop for a present id deletes it and renders once. -/
theorem onStop_spec_witness :
    onStop [("a", [])] ⟨"f", none⟩ "b" = ([("a", [])], ⟨"f", none⟩, 0) ∧
    (onStop [("a", [])] ⟨"f", none⟩ "a").1 = [] ∧
    (onStop [("a", [])] ⟨"f", none⟩ "a").2.2 = 1 := by
  refine ⟨((onStop_spec [("a", [])] ⟨"f", none⟩ "b").1 (by decide)).1, ?_, ?_⟩
  · have h := ((onStop_spec [("a", [])] ⟨"f", none⟩ "a").2
      ⟨("a", []), by decide, rfl⟩).1
    rw [h]
    decide
  · exact ((onStop_spec [("a", [])] ⟨"f", none⟩ "a").2
      ⟨("a", []), by decide, rfl⟩).2.2

/-- **Claim C9.** A start event whose inspection fails leaves the
registry, the filesystem and the render count unchanged; a successful
resolution stores the resolved records under the container's id
(inserting or replacing) and renders exactly once. -/
theorem onStart_spec (hosts : Registry) (fs : FS) (id : String) :
    (∀ e, onStart hosts fs id (Except.error e) = (hosts, fs, 0)) ∧
    ∀ info,
      (onStart hosts fs id (Except.ok info)).1
        = mapSet hosts id (containerAddresses info) ∧
      List.lookup id (onStart hosts fs id (Except.ok info)).1
        = some (containerAddresses info) ∧
      (onStart hosts fs id (Except.ok info)).2.1
        = applyRender (mapSet hosts id (containerAddresses info)) fs ∧
      (onStart hosts fs id (Except.ok info)).2.2 = 1 := by
  refine ⟨fun e => rfl, fun info => ⟨rfl, ?_, rfl, rfl⟩⟩
  exact lookup_mapSet hosts id (containerAddresses info)

/-- **Claim C10.** A successful render with an empty registry writes the
stripped prefix lines joined by newlines and nothing else, so whenever
the preserved prefix's last non-blank line was newline-terminated (there
were further blank lines or a marker after it), the resulting file does
not end in a newline: the trailing newline is lost. -/
theorem render_empty_registry_trailing (c : String)
    (h1 : preservedLines c ≠ [])
    (_h2 : (preservedLines c).length
          < (removeAfterMarker (goSplitLines c)).length
        ∨ markerLine ∈ goSplitLines c) :
    renderContent ([] : Registry) c ≠ "" ∧
    endsWithNewline (renderContent ([] : Registry) c) = false ∧
    renderContent ([] : Registry) c = goJoinLines (preservedLines c) := by
  have hout : renderContent ([] : Registry) c
      = goJoinLines (preservedLines c) := rfl
  rcases stripTrailing_getLast_not_blank
      (removeAfterMarker (goSplitLines c)) h1 with ⟨x, t, hP0, hxb⟩
  have hP : preservedLines c = t ++ [x] := hP0
  have hxne : x.data ≠ [] := by
    intro h0
    rw [isBlank, h0] at hxb
    simp at hxb
  have hxfree : NlFree x :=
    nlFree_of_mem_preservedLines (c := c)
      (by rw [hP]; exact List.mem_append_right t (List.mem_singleton.mpr rfl))
  have hlast : (goJoinLines (preservedLines c)).data.getLast?
      = x.data.getLast? := by
    show (goJoinStrings "\n" (preservedLines c)).data.getLast? = _
    rw [hP]
    show (joinWith "\n".data ((t ++ [x]).map String.data)).getLast? = _
    rw [List.map_append]
    exact getLast?_joinWith _ _ _ hxne
  rcases Option.isSome_iff_exists.mp
      (by rw [List.getLast?_isSome]; simpa using hxne) with ⟨ch, hch⟩
  have hchmem : ch ∈ x.data := by
    rcases List.mem_getLast?_eq_getLast (l := x.data) (x := ch)
        (by rw [hch]; rfl) with ⟨hne, hcheq⟩
    rw [hcheq]
    exact List.getLast_mem hne
  have hchnl : ch ≠ '\n' := fun h0 => hxfree (h0 ▸ hchmem)
  refine ⟨?_, ?_, hout⟩
  · intro h0
    have : (goJoinLines (preservedLines c)).data = [] := by
      rw [← hout, h0]
    rw [this] at hlast
    rw [hch] at hlast
    simp at hlast
  · rw [hout]
    unfold endsWithNewline
    rw [hlast, hch]
    simpa using hchnl

/-- Witness for C10: the one-line hosts file `"127.0.0.1 localhost\n"`
rendered with an empty registry becomes `"127.0.0.1 localhost"`,
losing its trailing newline. -/
theorem render_empty_registry_trailing_witness :
    renderContent ([] : Registry) "127.0.0.1 localhost\n" ≠ "" ∧
    endsWithNewline
      (renderContent ([] : Registry) "127.0.0.1 localhost\n") = false ∧
    renderContent ([] : Registry) "127.0.0.1 localhost\n"
      = goJoinLines (preservedLines "127.0.0.1 localhost\n") :=
  render_empty_registry_trailing "127.0.0.1 localhost\n" (by decide)
    (Or.inl (by decide))

end Hoster
